import Mathlib

/-!
Verification of the LimiterClass repository (look-ahead peak limiter:
DelaySmooth, PeakHoldCascade, ExpSmootherCascade, Limiter).

The per-sample processing code is embedded over ℚ (exact arithmetic standing
for the C++ generic floating type, with transcendental-valued coefficients
carried as state fields, exactly as the C++ objects carry them).  The
configuration-level code (constructors and setters, which compute exp, pow
and rint) is embedded over ℝ.
-/

/- ================= PeakHoldCascade (PeakHoldCascade.hpp) ================= -/

/-- One peak-hold section step.  Mirrors the level-1 loop body of
PeakHoldCascade.Process: isNewPeak is input >= output, isTimeOut is
timer >= holdTimeSamples; on release the timer resets and the output
takes the input, otherwise the timer increments and the output holds. -/
def stepOne (h : ℕ) (x : ℚ) (p : ℕ × ℚ) : ℕ × ℚ :=
  if p.2 ≤ x ∨ h ≤ p.1 then (0, x) else (p.1 + 1, p.2)

/-- One sample through the whole cascade: the input threads through the
stages, each stage state is a (timer, output) pair; returns the new stage
list and the last stage output (the sample written to yVec). -/
def phStep (h : ℕ) (x : ℚ) : List (ℕ × ℚ) → List (ℕ × ℚ) × ℚ
  | [] => ([], x)
  | p :: ps =>
    let p2 := stepOne h x p
    let r := phStep h p2.2 ps
    (p2 :: r.1, r.2)

/-- PeakHoldCascade.Process on a block: per sample, the absolute value of
the input feeds the cascade. -/
def phProcess (h : ℕ) (st : List (ℕ × ℚ)) : List ℚ → List (ℕ × ℚ) × List ℚ
  | [] => (st, [])
  | x :: xs =>
    let r := phStep h |x| st
    let rest := phProcess h r.1 xs
    (rest.1, r.2 :: rest.2)

/-- PeakHoldCascade.Reset as written in the source for the shipped
instantiation (stages = 8, real = double, 8-byte size_t): the two
memset calls clear only `stages` = 8 bytes of each array, i.e. exactly
the first timer element and the first output element; stages 1..7 keep
their values. -/
def phReset8 : List (ℕ × ℚ) → List (ℕ × ℚ)
  | [] => []
  | _ :: ps => (0, 0) :: ps

/-- The release condition of one peak-hold section: a new peak
(input >= output) or a timer expiry (timer >= holdTimeSamples). -/
def phRel (h : ℕ) (x : ℚ) (p : ℕ × ℚ) : Prop :=
  p.2 ≤ x ∨ h ≤ p.1

/-- Stream form of the cascade evolution (proof device): state after s
samples, where sample s+1 carries the already-rectified input B (s+1). -/
def phSeq (h : ℕ) (B : ℕ → ℚ) (init : List (ℕ × ℚ)) : ℕ → List (ℕ × ℚ)
  | 0 => init
  | s + 1 => (phStep h (B (s + 1)) (phSeq h B init s)).1

/-- Output of stage i after s samples of the stream. -/
def phOutSeq (h : ℕ) (B : ℕ → ℚ) (init : List (ℕ × ℚ)) (i s : ℕ) : ℚ :=
  ((phSeq h B init s).getD i (0, 0)).2

/-- Timer of stage i after s samples of the stream. -/
def phTimerSeq (h : ℕ) (B : ℕ → ℚ) (init : List (ℕ × ℚ)) (i s : ℕ) : ℕ :=
  ((phSeq h B init s).getD i (0, 0)).1

/- ================= ExpSmootherCascade (ExpSmootherCascade.hpp) ========== -/

/-- One exponential-smoother stage: attack phase when input > output, and
output := input + coeff[phase] * (output - input). -/
def esStage (cA cR x st : ℚ) : ℚ :=
  x + (if st < x then cA else cR) * (st - x)

/-- One sample through the smoother cascade; input threads through the
stages, result is (new stage outputs, last stage output). -/
def esStep (cA cR : ℚ) (x : ℚ) : List ℚ → List ℚ × ℚ
  | [] => ([], x)
  | st :: rest =>
    let o := esStage cA cR x st
    let r := esStep cA cR o rest
    (o :: r.1, r.2)

/-- ExpSmootherCascade.Process on a block. -/
def esProcess (cA cR : ℚ) (st : List ℚ) : List ℚ → List ℚ × List ℚ
  | [] => (st, [])
  | x :: xs =>
    let r := esStep cA cR x st
    let rest := esProcess cA cR r.1 xs
    (rest.1, r.2 :: rest.2)

/- ================= DelaySmooth (DelaySmooth.hpp) ======================== -/

/-- Buffer length for a uint16 head type: 2l << 15. -/
def dsLen : ℕ := 65536

/-- Unsigned wrap-around subtraction a - b reduced modulo the buffer
length, as performed by the fixed-width reading-head arithmetic. -/
def wrapSub (a b : ℕ) : ℕ :=
  (a % dsLen + (dsLen - b % dsLen)) % dsLen

/-- DelaySmooth runtime state (uint16 heads, generic samples as ℚ). -/
structure DelayState where
  delay : ℕ
  interpolationTime : ℕ
  lowerDelay : ℕ
  upperDelay : ℕ
  interpolation : ℚ
  interpolationStep : ℚ
  increment : ℚ
  lowerReadPtr : ℕ
  upperReadPtr : ℕ
  writePtr : ℕ
  buffer : ℕ → ℚ

/-- The default-constructed DelaySmooth: zeroed buffer and heads, delay 0,
interpolation time 1024 with step 1/1024, increment = step. -/
def delayDefault : DelayState :=
  { delay := 0, interpolationTime := 1024, lowerDelay := 0, upperDelay := 0,
    interpolation := 0, interpolationStep := 1/1024, increment := 1/1024,
    lowerReadPtr := 0, upperReadPtr := 0, writePtr := 0, buffer := fun _ => 0 }

/-- One sample of DelaySmooth.Process, in source order: write the input at
writePtr; compute the reach/changed booleans; update increment (downward
start overrides upward start), latch lowerDelay to the target when at the
upper edge and upperDelay when at the lower edge; compute the read heads
from the updated delays; advance writePtr; clamp-update the interpolation
and emit the crossfaded output. -/
def delayStepOne (d : DelayState) (x : ℚ) : DelayState × ℚ :=
  let bufW : ℕ → ℚ := Function.update d.buffer (d.writePtr % dsLen) x
  let lowerReach := d.interpolation = 0
  let upperReach := d.interpolation = 1
  let lowerDelayChanged := d.delay ≠ d.lowerDelay
  let upperDelayChanged := d.delay ≠ d.upperDelay
  let startDown := upperReach ∧ upperDelayChanged
  let startUp := lowerReach ∧ lowerDelayChanged
  let increment2 :=
    if startDown then -d.interpolationStep
    else if startUp then d.interpolationStep
    else d.increment
  let lowerDelay2 := if upperReach then d.delay else d.lowerDelay
  let upperDelay2 := if lowerReach then d.delay else d.upperDelay
  let lowerReadPtr2 := wrapSub d.writePtr lowerDelay2
  let upperReadPtr2 := wrapSub d.writePtr upperDelay2
  let writePtr2 := (d.writePtr + 1) % dsLen
  let interpolation2 := max 0 (min 1 (d.interpolation + increment2))
  let y := interpolation2 * (bufW upperReadPtr2 - bufW lowerReadPtr2) +
      bufW lowerReadPtr2
  ({ d with
     buffer := bufW
     increment := increment2
     lowerDelay := lowerDelay2
     upperDelay := upperDelay2
     lowerReadPtr := lowerReadPtr2
     upperReadPtr := upperReadPtr2
     writePtr := writePtr2
     interpolation := interpolation2 }, y)

/-- DelaySmooth.Process on a block. -/
def delayProcess (d : DelayState) : List ℚ → DelayState × List ℚ
  | [] => (d, [])
  | x :: xs =>
    let r := delayStepOne d x
    let rest := delayProcess r.1 xs
    (rest.1, r.2 :: rest.2)

/- ================= Limiter (Limiter.hpp), per-block processing ========== -/

/-- Limiter runtime state for Process: the linear parameter values and
smoothing coefficient, the two parameter smoother states, and the three
owned components (peak-hold stages, smoother coefficients and stages, two
delay lines). -/
structure LimState where
  linThreshold : ℚ
  linPreGain : ℚ
  smoothPreGain : ℚ
  smoothThreshold : ℚ
  smoothParamCoeff : ℚ
  holdTimeSamples : ℕ
  phState : List (ℕ × ℚ)
  attCoeff : ℚ
  relCoeff : ℚ
  esState : List ℚ
  delayL : DelayState
  delayR : DelayState

/-- The pre-gain loop of Limiter.Process: smoothPreGain is one-pole smoothed
toward linPreGain and multiplies both channels in place; returns the final
smoothPreGain and the two scaled channels. -/
def preGainLoop (α lin : ℚ) : ℚ → List ℚ → List ℚ → ℚ × List ℚ × List ℚ
  | g, xL :: ls, xR :: rs =>
    let g2 := lin + α * (g - lin)
    let r := preGainLoop α lin g2 ls rs
    (r.1, g2 * xL :: r.2.1, g2 * xR :: r.2.2)
  | g, _, _ => (g, [], [])

/-- The clip-at-threshold loop of Limiter.Process: smoothThreshold is
one-pole smoothed toward linThreshold; each envelope sample is clipped from
below at it and the smoothed threshold sequence is recorded; returns the
final smoothThreshold, the clipped envelope and the threshold sequence. -/
def clipLoop (α lin : ℚ) : ℚ → List ℚ → ℚ × List ℚ × List ℚ
  | st, [] => (st, [], [])
  | st, m :: ms =>
    let st2 := lin + α * (st - lin)
    let r := clipLoop α lin st2 ms
    (r.1, max m st2 :: r.2.1, st2 :: r.2.2)

/-- Steps 1-6 of Limiter.Process (lines 148-190): pre-gain, mono side chain
as max of channel magnitudes, peak-hold, clip at smoothed threshold,
exponential smoothing, and gain = smoothed threshold / smoothed envelope.
Returns (gain vector, final smoothPreGain, pre-gained left, pre-gained
right, new peak-hold state, final smoothThreshold, new smoother state). -/
def limGain (s : LimState) (xL xR : List ℚ) :
    List ℚ × ℚ × List ℚ × List ℚ × List (ℕ × ℚ) × ℚ × List ℚ :=
  let p := preGainLoop s.smoothParamCoeff s.linPreGain s.smoothPreGain xL xR
  let m := List.zipWith (fun a b => max |a| |b|) p.2.1 p.2.2
  let ph := phProcess s.holdTimeSamples s.phState m
  let c := clipLoop s.smoothParamCoeff s.linThreshold s.smoothThreshold ph.2
  let es := esProcess s.attCoeff s.relCoeff s.esState c.2.1
  let g := List.zipWith (fun a b => a / b) c.2.2 es.2
  (g, p.1, p.2.1, p.2.2, ph.1, c.1, es.1)

/-- Limiter.Process with distinct, non-overlapping output buffers: the gain
pipeline, then the look-ahead delay applied in place to the (pre-gained)
input channels, then the gain applied.  Returns (yL, yR, final xL buffer,
final xR buffer, new state); the x buffers hold the delayed pre-gained
inputs, as the in-place source writes leave them. -/
def limProcess (s : LimState) (xL xR : List ℚ) :
    List ℚ × List ℚ × List ℚ × List ℚ × LimState :=
  let r := limGain s xL xR
  let dL := delayProcess s.delayL r.2.2.1
  let dR := delayProcess s.delayR r.2.2.2.1
  (List.zipWith (fun a b => a * b) r.1 dL.2,
   List.zipWith (fun a b => a * b) r.1 dR.2,
   dL.2, dR.2,
   { s with
     smoothPreGain := r.2.1
     phState := r.2.2.2.2.1
     smoothThreshold := r.2.2.2.2.2.1
     esState := r.2.2.2.2.2.2
     delayL := dL.1
     delayR := dR.1 })

/-- Limiter.Process executed with yL aliased to xL and yR aliased to xR.
Tracing the source with shared buffers: after step 6 both shared buffers
hold the gain vector, so the delay lines process the gain vector itself,
and the final in-place multiply squares the delayed gain. -/
def limProcessAliased (s : LimState) (xL xR : List ℚ) :
    List ℚ × List ℚ × LimState :=
  let r := limGain s xL xR
  let dL := delayProcess s.delayL r.1
  let dR := delayProcess s.delayR r.1
  (List.zipWith (fun a b => a * b) dL.2 dL.2,
   List.zipWith (fun a b => a * b) dR.2 dR.2,
   { s with
     smoothPreGain := r.2.1
     phState := r.2.2.2.2.1
     smoothThreshold := r.2.2.2.2.2.1
     esState := r.2.2.2.2.2.2
     delayL := dL.1
     delayR := dR.1 })

/- ============ Concrete states and invariants ========================== -/

/-- Iterated single-stage smoother update with constant input u. -/
def esIter (cA cR u : ℚ) : ℕ → ℚ → ℚ
  | 0, st => st
  | n + 1, st => esIter cA cR u n (esStage cA cR u st)

/-- A concrete limiter state: the zero initial runtime state (zero smoother
stages, zero peak-hold stages, zero parameter-smoother scalars, default
delay lines) under a legal configuration, with all smoothing coefficients
equal to 1/2 (each lies in (0,1), hence is exp(-2*pi*f/sr) for some rate)
and linear threshold 1/2 (10 raised to a negative dB value over 20). -/
def limStateEx : LimState :=
  { linThreshold := 1/2, linPreGain := 1, smoothPreGain := 0,
    smoothThreshold := 0, smoothParamCoeff := 1/2, holdTimeSamples := 1,
    phState := List.replicate 8 (0, 0),
    attCoeff := 1/2, relCoeff := 1/2, esState := List.replicate 4 0,
    delayL := delayDefault, delayR := delayDefault }

/-- A delay-line state sitting at the upper interpolation endpoint whose
latched target equals the upper tap delay (no new crossfade is due), but
whose lower tap delay differs from the target. -/
def delayStateC9 : DelayState :=
  { delayDefault with
    delay := 5
    lowerDelay := 3
    upperDelay := 5
    interpolation := 1 }

/-- A delay-line state in mid-crossfade (interpolation strictly between the
endpoints). -/
def delayStateC9w : DelayState :=
  { delayDefault with
    delay := 7
    lowerDelay := 1
    upperDelay := 2
    interpolation := 1/2 }

/-- Configuration/state conditions satisfied by every limiter state
reachable from a legal configuration: the parameter-smoothing and smoother
coefficients lie in (0,1), the linear threshold is positive (it is a power
of 10), and the smoothed threshold and the smoother stages are
nonnegative. -/
def LimInv (s : LimState) : Prop :=
  0 < s.smoothParamCoeff ∧ s.smoothParamCoeff < 1 ∧
  0 < s.linThreshold ∧ 0 ≤ s.smoothThreshold ∧
  0 < s.attCoeff ∧ s.attCoeff < 1 ∧ 0 < s.relCoeff ∧ s.relCoeff < 1 ∧
  ∀ q ∈ s.esState, 0 ≤ q

/- ============ Configuration level (constructors and setters), over ℝ === -/

open Classical

/-- std::rint under the default rounding mode: round to nearest, ties to
even. -/
noncomputable def rintR (x : ℝ) : ℤ :=
  if Int.fract x = 1/2 then (if Even ⌊x⌋ then ⌊x⌋ else ⌊x⌋ + 1) else round x

/-- Coefficient correction factor 1 / sqrt(2^(1/stages) - 1) of
ExpSmootherCascade. -/
noncomputable def esK (stages : ℕ) : ℝ :=
  1 / Real.sqrt ((2 : ℝ) ^ ((1 : ℝ) / (stages : ℝ)) - 1)

/-- ExpSmootherCascade configuration state (the limiter instantiation has
stages = 4); coeffRel and coeffAtt mirror the coeff[2] lookup array. -/
structure ESConfig where
  SR : ℝ
  T : ℝ
  twoPiT : ℝ
  attTime : ℝ
  relTime : ℝ
  attCoeff : ℝ
  relCoeff : ℝ
  coeffRel : ℝ
  coeffAtt : ℝ

/-- Default-constructed ExpSmootherCascade<4>: SR 48000, attack 0.001 s,
release 0.01 s, coefficients exp((-twoPiT * K) / tau). -/
noncomputable def esCfgDefault : ESConfig :=
  { SR := 48000
    T := 1/48000
    twoPiT := 2 * Real.pi * (1/48000)
    attTime := 1/1000
    relTime := 1/100
    attCoeff := Real.exp ((-(2 * Real.pi * (1/48000)) * esK 4) / (1/1000))
    relCoeff := Real.exp ((-(2 * Real.pi * (1/48000)) * esK 4) / (1/100))
    coeffRel := Real.exp ((-(2 * Real.pi * (1/48000)) * esK 4) / (1/100))
    coeffAtt := Real.exp ((-(2 * Real.pi * (1/48000)) * esK 4) / (1/1000)) }

/-- ExpSmootherCascade::SetSR: updates SR, T and twoPiT only; the attack
and release coefficients are not recomputed. -/
noncomputable def esSetSR (c : ESConfig) (sr : ℝ) : ESConfig :=
  { c with
    SR := sr
    T := 1/sr
    twoPiT := 2 * Real.pi * (1/sr) }

/-- ExpSmootherCascade::SetAttTime: recomputes the attack coefficient from
the stored twoPiT and updates coeff[1]. -/
noncomputable def esSetAttTime (c : ESConfig) (t : ℝ) : ESConfig :=
  { c with
    attTime := t
    attCoeff := Real.exp ((-c.twoPiT * esK 4) / t)
    coeffAtt := Real.exp ((-c.twoPiT * esK 4) / t) }

/-- ExpSmootherCascade::SetRelTime: recomputes the release coefficient from
the stored twoPiT and updates coeff[0]. -/
noncomputable def esSetRelTime (c : ESConfig) (t : ℝ) : ESConfig :=
  { c with
    relTime := t
    relCoeff := Real.exp ((-c.twoPiT * esK 4) / t)
    coeffRel := Real.exp ((-c.twoPiT * esK 4) / t) }

/-- PeakHoldCascade configuration state (the limiter instantiation has
stages = 8, so oneOverStages = 1/8). -/
structure PHConfig where
  SR : ℝ
  holdTime : ℝ
  holdTimeSamples : ℤ

/-- Default-constructed PeakHoldCascade<8>: SR 48000, hold time 0. -/
noncomputable def phCfgDefault : PHConfig :=
  { SR := 48000
    holdTime := 0
    holdTimeSamples := rintR (0 * (1/8) * 48000) }

/-- PeakHoldCascade::SetSR: recomputes holdTimeSamples from the new rate. -/
noncomputable def phSetSR (c : PHConfig) (sr : ℝ) : PHConfig :=
  { c with
    SR := sr
    holdTimeSamples := rintR (c.holdTime * (1/8) * sr) }

/-- PeakHoldCascade::SetHoldTime: recomputes holdTimeSamples. -/
noncomputable def phSetHoldTime (c : PHConfig) (h : ℝ) : PHConfig :=
  { c with
    holdTime := h
    holdTimeSamples := rintR (h * (1/8) * c.SR) }

/-- DelaySmooth configuration fields touched by the setters. -/
structure DSConfig where
  delay : ℤ
  interpolationTime : ℤ
  interpolationStep : ℝ

/-- Default-constructed DelaySmooth configuration. -/
noncomputable def dsCfgDefault : DSConfig :=
  { delay := 0, interpolationTime := 1024, interpolationStep := 1/1024 }

/-- DelaySmooth::SetDelay. -/
def dsSetDelay (c : DSConfig) (d : ℤ) : DSConfig :=
  { c with delay := d }

/-- DelaySmooth::SetInterpolationTime: also recomputes the step 1/time. -/
noncomputable def dsSetInterpolationTime (c : DSConfig) (t : ℤ) : DSConfig :=
  { c with
    interpolationTime := t
    interpolationStep := 1 / (t : ℝ) }

/-- Limiter configuration state with its owned sub-component
configurations. -/
structure LimConfig where
  SR : ℝ
  T : ℝ
  attack : ℝ
  hold : ℝ
  release : ℝ
  dBThreshold : ℝ
  linThreshold : ℝ
  dBPreGain : ℝ
  linPreGain : ℝ
  smoothPreGain : ℝ
  smoothThreshold : ℝ
  smoothParamCoeff : ℝ
  lookaheadDelay : ℤ
  delayL : DSConfig
  delayR : DSConfig
  ph : PHConfig
  es : ESConfig

/-- Default-constructed Limiter: all member initializers evaluated in
declaration order (so linThreshold derives from the default dBThreshold,
and smoothParamCoeff from the default rate). -/
noncomputable def limCfgDefault : LimConfig :=
  { SR := 48000
    T := 1/48000
    attack := 1/100
    hold := 0
    release := 1/20
    dBThreshold := -(3/10)
    linThreshold := (10 : ℝ) ^ ((-(3/10)) * (5/100) : ℝ)
    dBPreGain := 0
    linPreGain := 1
    smoothPreGain := 0
    smoothThreshold := 0
    smoothParamCoeff := Real.exp (-(2 * Real.pi) * 20 * (1/48000))
    lookaheadDelay := 0
    delayL := dsCfgDefault
    delayR := dsCfgDefault
    ph := phCfgDefault
    es := esCfgDefault }

/-- Limiter::SetSR: updates SR and T, recomputes the 20 Hz parameter
smoothing coefficient, and forwards the rate to the peak holder and the
smoother. -/
noncomputable def limSetSR (c : LimConfig) (sr : ℝ) : LimConfig :=
  { c with
    SR := sr
    T := 1/sr
    smoothParamCoeff := Real.exp (-(2 * Real.pi) * 20 * (1/sr))
    ph := phSetSR c.ph sr
    es := esSetSR c.es sr }

/-- Limiter::SetAttTime: lookahead = rint(attack * (1/8) * SR) * 8; both
delay lines get that delay and interpolation time; the smoother attack
time becomes the attack, and the peak-hold hold time becomes
attack + hold. -/
noncomputable def limSetAttTime (c : LimConfig) (a : ℝ) : LimConfig :=
  let la : ℤ := rintR (a * (1/8) * c.SR) * 8
  { c with
    attack := a
    lookaheadDelay := la
    delayL := dsSetInterpolationTime (dsSetDelay c.delayL la) la
    delayR := dsSetInterpolationTime (dsSetDelay c.delayR la) la
    es := esSetAttTime c.es a
    ph := phSetHoldTime c.ph (a + c.hold) }

/-- Limiter::SetHoldTime: forwards attack + hold to the peak holder. -/
noncomputable def limSetHoldTime (c : LimConfig) (h : ℝ) : LimConfig :=
  { c with
    hold := h
    ph := phSetHoldTime c.ph (c.attack + h) }

/-- Limiter::SetRelTime: forwards the release to the smoother. -/
noncomputable def limSetRelTime (c : LimConfig) (r : ℝ) : LimConfig :=
  { c with
    release := r
    es := esSetRelTime c.es r }

/-- Limiter::SetThreshold: stores the dB value and its linearisation
10^(db * 0.05). -/
noncomputable def limSetThreshold (c : LimConfig) (th : ℝ) : LimConfig :=
  { c with
    dBThreshold := th
    linThreshold := (10 : ℝ) ^ (th * (5/100) : ℝ) }

/-- Limiter::SetPreGain: stores the dB value and its linearisation. -/
noncomputable def limSetPreGain (c : LimConfig) (g : ℝ) : LimConfig :=
  { c with
    dBPreGain := g
    linPreGain := (10 : ℝ) ^ (g * (5/100) : ℝ) }

/-- The six-argument Limiter constructor: the member initializers run first
with the declared defaults, then the body assigns only the six raw
parameter fields; no derived quantity and no sub-component is
reconfigured. -/
noncomputable def limCtor (sr pg a h r th : ℝ) : LimConfig :=
  { limCfgDefault with
    SR := sr
    dBPreGain := pg
    attack := a
    hold := h
    release := r
    dBThreshold := th }

/-- C8: for a smoother stage with both coefficients in (0,1): a state equal
to the input is a fixed point; from below the input, each update strictly
increases the state and keeps it below the input, so the iterates are
strictly increasing and bounded above by the input; symmetrically from
above the input the iterates are strictly decreasing and bounded below. -/
theorem C8_smoother_stage_monotone (cA cR u st : ℚ)
    (hA0 : 0 < cA) (hA1 : cA < 1) (hR0 : 0 < cR) (hR1 : cR < 1) :
    (st = u → esStage cA cR u st = u) ∧
    (st < u → st < esStage cA cR u st ∧ esStage cA cR u st < u) ∧
    (u < st → esStage cA cR u st < st ∧ u < esStage cA cR u st) ∧
    (st < u → ∀ n : ℕ, esIter cA cR u n st < esIter cA cR u (n + 1) st ∧
      esIter cA cR u n st < u) ∧
    (u < st → ∀ n : ℕ, esIter cA cR u (n + 1) st < esIter cA cR u n st ∧
      u < esIter cA cR u n st) := by
  have hstep_up : ∀ v : ℚ, v < u → v < esStage cA cR u v ∧ esStage cA cR u v < u := by
    intro v hv
    unfold esStage
    rw [if_pos hv]
    constructor
    · nlinarith
    · nlinarith
  have hstep_down : ∀ v : ℚ, u < v → esStage cA cR u v < v ∧ u < esStage cA cR u v := by
    intro v hv
    unfold esStage
    rw [if_neg (by linarith)]
    constructor
    · nlinarith
    · nlinarith
  refine ⟨?_, hstep_up st, hstep_down st, ?_, ?_⟩
  · intro h
    subst h
    unfold esStage
    rw [if_neg (lt_irrefl st)]
    ring
  · intro hlt n
    induction n generalizing st with
    | zero =>
      exact ⟨(hstep_up st hlt).1, hlt⟩
    | succ n ih =>
      have h1 := hstep_up st hlt
      have := ih (esStage cA cR u st) h1.2
      exact ⟨this.1, this.2⟩
  · intro hlt n
    induction n generalizing st with
    | zero =>
      exact ⟨(hstep_down st hlt).1, hlt⟩
    | succ n ih =>
      have h1 := hstep_down st hlt
      have := ih (esStage cA cR u st) h1.2
      exact ⟨this.1, this.2⟩

/-- Witness for C8 at cA = cR = 1/2, u = 1, st = 0, n = 1. -/
theorem C8_smoother_stage_monotone_witness :
    esStage (1/2) (1/2) 1 0 = 1/2 ∧
    esIter (1/2) (1/2) 1 1 0 < esIter (1/2) (1/2) 1 2 0 := by
  have h := C8_smoother_stage_monotone (1/2) (1/2) 1 0
    (by norm_num) (by norm_num) (by norm_num) (by norm_num)
  refine ⟨by unfold esStage; norm_num, (h.2.2.2.1 (by norm_num) 1).1⟩

/- ============ Helper lemmas ========================================== -/

/-- Every element of a zipWith image comes from a pair of elements of the
two argument lists. -/
theorem mem_zipWith_elim {f : ℚ → ℚ → ℚ} {c : ℚ} :
    ∀ {as bs : List ℚ}, c ∈ List.zipWith f as bs →
      ∃ a b, a ∈ as ∧ b ∈ bs ∧ c = f a b := by
  intro as
  induction as with
  | nil => intro bs h; simp at h
  | cons a as ih =>
    intro bs h
    cases bs with
    | nil => simp at h
    | cons b bs =>
      simp only [List.zipWith, List.mem_cons] at h
      rcases h with h | h
      · exact ⟨a, b, List.mem_cons_self a as, List.mem_cons_self b bs, h⟩
      · obtain ⟨p, q, hp, hq, hc⟩ := ih h
        exact ⟨p, q, List.mem_cons_of_mem a hp, List.mem_cons_of_mem b hq, hc⟩

/-- The clip loop keeps the clipped envelope and the recorded threshold
sequence strictly positive and the final smoothed threshold nonnegative,
whenever the coefficient is in (0,1), the linear threshold is positive and
the incoming smoothed threshold is nonnegative. -/
theorem clipLoop_pos (α lin : ℚ) (hα0 : 0 < α) (hα1 : α < 1)
    (hlin : 0 < lin) :
    ∀ (ms : List ℚ) (st : ℚ), 0 ≤ st →
      (∀ q ∈ (clipLoop α lin st ms).2.1, 0 < q) ∧
      (∀ q ∈ (clipLoop α lin st ms).2.2, 0 < q) ∧
      0 ≤ (clipLoop α lin st ms).1 := by
  intro ms
  induction ms with
  | nil => intro st hst; exact ⟨by simp [clipLoop], by simp [clipLoop], by simpa [clipLoop] using hst⟩
  | cons m ms ih =>
    intro st hst
    have hst2 : 0 < lin + α * (st - lin) := by nlinarith
    obtain ⟨h1, h2, h3⟩ := ih (lin + α * (st - lin)) (le_of_lt hst2)
    refine ⟨?_, ?_, ?_⟩
    · intro q hq
      simp only [clipLoop, List.mem_cons] at hq
      rcases hq with hq | hq
      · subst hq; exact lt_of_lt_of_le hst2 (le_max_right _ _)
      · exact h1 q hq
    · intro q hq
      simp only [clipLoop, List.mem_cons] at hq
      rcases hq with hq | hq
      · subst hq; exact hst2
      · exact h2 q hq
    · simpa [clipLoop] using h3

/-- One smoother-cascade sample maps a positive input and nonnegative stage
states to a positive output and positive (hence nonnegative) new states. -/
theorem esStep_pos (cA cR : ℚ) (hA0 : 0 < cA) (hA1 : cA < 1)
    (hR0 : 0 < cR) (hR1 : cR < 1) :
    ∀ (st : List ℚ) (x : ℚ), 0 < x → (∀ q ∈ st, 0 ≤ q) →
      0 < (esStep cA cR x st).2 ∧ ∀ q ∈ (esStep cA cR x st).1, 0 < q := by
  intro st
  induction st with
  | nil => intro x hx _; exact ⟨hx, by simp [esStep]⟩
  | cons s0 rest ih =>
    intro x hx hst
    have hs0 : 0 ≤ s0 := hst s0 (List.mem_cons_self _ _)
    have ho : 0 < esStage cA cR x s0 := by
      unfold esStage
      by_cases h : s0 < x
      · rw [if_pos h]; nlinarith
      · rw [if_neg h]; push_neg at h; nlinarith
    obtain ⟨h1, h2⟩ := ih (esStage cA cR x s0) ho
      (fun q hq => hst q (List.mem_cons_of_mem _ hq))
    refine ⟨by simpa [esStep] using h1, ?_⟩
    intro q hq
    simp only [esStep, List.mem_cons] at hq
    rcases hq with hq | hq
    · subst hq; exact ho
    · exact h2 q hq

/-- The smoother cascade maps positive inputs and nonnegative stage states
to positive outputs and nonnegative final states. -/
theorem esProcess_pos (cA cR : ℚ) (hA0 : 0 < cA) (hA1 : cA < 1)
    (hR0 : 0 < cR) (hR1 : cR < 1) :
    ∀ (xs : List ℚ) (st : List ℚ), (∀ x ∈ xs, 0 < x) → (∀ q ∈ st, 0 ≤ q) →
      (∀ y ∈ (esProcess cA cR st xs).2, 0 < y) ∧
      (∀ q ∈ (esProcess cA cR st xs).1, 0 ≤ q) := by
  intro xs
  induction xs with
  | nil => intro st _ hst; exact ⟨by simp [esProcess], by simpa [esProcess] using hst⟩
  | cons x xs ih =>
    intro st hxs hst
    have hx : 0 < x := hxs x (List.mem_cons_self _ _)
    obtain ⟨hout, hnew⟩ := esStep_pos cA cR hA0 hA1 hR0 hR1 st x hx hst
    obtain ⟨h1, h2⟩ := ih (esStep cA cR x st).1
      (fun p hp => hxs p (List.mem_cons_of_mem _ hp))
      (fun q hq => le_of_lt (hnew q hq))
    refine ⟨?_, ?_⟩
    · intro y hy
      simp only [esProcess, List.mem_cons] at hy
      rcases hy with hy | hy
      · subst hy; exact hout
      · exact h1 y hy
    · intro q hq
      simpa [esProcess] using h2 q (by simpa [esProcess] using hq)

/- ============ Claim C1 ================================================ -/

/-- The concrete zero-state configuration satisfies the reachable-state
conditions. -/
theorem limInvEx : LimInv limStateEx := by
  unfold LimInv
  norm_num [limStateEx, List.replicate]

/-- Evaluation of the gain pipeline on one silent sample from the concrete
zero state: the smoothed threshold is 1/4 while the freshly started
four-stage smoother output is 1/64, so the gain is 16. -/
theorem limGainExZero : (limGain limStateEx [0] [0]).1 = [16] := by
  norm_num [limGain, limStateEx, preGainLoop, phProcess, phStep, stepOne,
    clipLoop, esProcess, esStep, esStage, List.zipWith, List.replicate,
    delayDefault, abs]

/-- C1 counterexample: from the zero initial runtime state of a legal
configuration (all smoothing coefficients in (0,1), positive linear
threshold, zero smoother state), a single silent input sample produces the
attenuation gain 16, violating g <= 1: the freshly started smoother output
lies far below the smoothed threshold, so the gain vector amplifies. -/
theorem C1_counterexample :
    (limGain limStateEx [0] [0]).1 = [16] ∧ ¬ ((16 : ℚ) ≤ 1) ∧
    LimInv limStateEx ∧ limStateEx.esState = List.replicate 4 0 :=
  ⟨limGainExZero, by norm_num, limInvEx, rfl⟩

/-- C1 amended: under the reachable-state invariant the attenuation gain
entries are always strictly positive, and one Process call preserves the
invariant (so positivity holds on every block from every reachable state);
the upper bound g <= 1 does not hold in general (see the counterexample). -/
theorem C1_gain_positive (s : LimState) (xL xR : List ℚ) (h : LimInv s) :
    (∀ g ∈ (limGain s xL xR).1, 0 < g) ∧
    LimInv (limProcess s xL xR).2.2.2.2 := by
  obtain ⟨hp0, hp1, hlin, hsm, hA0, hA1, hR0, hR1, hes⟩ := h
  have hclip := clipLoop_pos s.smoothParamCoeff s.linThreshold hp0 hp1 hlin
    (phProcess s.holdTimeSamples s.phState
      (List.zipWith (fun a b => max |a| |b|)
        (preGainLoop s.smoothParamCoeff s.linPreGain s.smoothPreGain xL xR).2.1
        (preGainLoop s.smoothParamCoeff s.linPreGain s.smoothPreGain xL xR).2.2)).2
    s.smoothThreshold hsm
  have hes2 := esProcess_pos s.attCoeff s.relCoeff hA0 hA1 hR0 hR1
    (clipLoop s.smoothParamCoeff s.linThreshold s.smoothThreshold
      (phProcess s.holdTimeSamples s.phState
        (List.zipWith (fun a b => max |a| |b|)
          (preGainLoop s.smoothParamCoeff s.linPreGain s.smoothPreGain xL xR).2.1
          (preGainLoop s.smoothParamCoeff s.linPreGain s.smoothPreGain xL xR).2.2)).2).2.1
    s.esState hclip.1 hes
  constructor
  · intro g hg
    obtain ⟨a, b, ha, hb, hgab⟩ := mem_zipWith_elim hg
    subst hgab
    exact div_pos (hclip.2.1 a ha) (hes2.1 b hb)
  · exact ⟨hp0, hp1, hlin, hclip.2.2, hA0, hA1, hR0, hR1, hes2.2⟩

/-- Witness for C1 amended at the concrete zero-state configuration. -/
theorem C1_gain_positive_witness :
    (16 : ℚ) ∈ (limGain limStateEx [0] [0]).1 ∧ (0 : ℚ) < 16 := by
  have hm : (16 : ℚ) ∈ (limGain limStateEx [0] [0]).1 := by
    rw [limGainExZero]
    exact List.mem_singleton.mpr rfl
  exact ⟨hm, (C1_gain_positive limStateEx [0] [0] limInvEx).1 16 hm⟩

/- ============ Claim C2 ================================================ -/

/-- C2: Reset does not restore the zero initial state.  After processing
the two samples 5, 3 from the fresh 8-stage cascade, the source Reset
(memset of `stages` = 8 bytes per array) clears only stage 0; stage 1
still holds the peak 5, so the reset state differs from the freshly
constructed all-zero state. -/
theorem C2_reset_incomplete :
    phReset8 (phProcess 2 (List.replicate 8 ((0 : ℕ), (0 : ℚ))) [5, 3]).1 ≠
      List.replicate 8 ((0 : ℕ), (0 : ℚ)) ∧
    (phReset8 (phProcess 2 (List.replicate 8 ((0 : ℕ), (0 : ℚ))) [5, 3]).1).getD 1
      ((0 : ℕ), (0 : ℚ)) = (0, 5) := by
  have h : phReset8 (phProcess 2 (List.replicate 8 ((0 : ℕ), (0 : ℚ))) [5, 3]).1 =
      [(0, 0), (0, 5), (0, 5), (0, 5), (0, 5), (0, 5), (0, 5), (0, 5)] := by
    norm_num [phProcess, phStep, stepOne, phReset8, List.replicate, abs]
  rw [h]
  refine ⟨?_, rfl⟩
  intro hc
  have := congrArg (fun l => (l.getD 1 ((0 : ℕ), (0 : ℚ))).2) hc
  norm_num [List.replicate] at this

/- ============ Claim C6 ================================================ -/

/-- C6 counterexample: with the same state and inputs, the aliased call
(yL = xL, yR = xR) produces [64] in the left output buffer while the
distinct-buffer call produces [4]. -/
theorem C6_counterexample :
    (limProcess limStateEx [1] [0]).1 = [4] ∧
    (limProcessAliased limStateEx [1] [0]).1 = [64] ∧
    ((4 : ℚ) ≠ 64) := by
  refine ⟨?_, ?_, by norm_num⟩
  · norm_num [limProcess, limGain, limStateEx, preGainLoop, phProcess, phStep,
      stepOne, clipLoop, esProcess, esStep, esStage, List.zipWith,
      List.replicate, delayProcess, delayStepOne, delayDefault, wrapSub,
      dsLen, abs, Function.update]
  · norm_num [limProcessAliased, limGain, limStateEx, preGainLoop, phProcess,
      phStep, stepOne, clipLoop, esProcess, esStep, esStage, List.zipWith,
      List.replicate, delayProcess, delayStepOne, delayDefault, wrapSub,
      dsLen, abs, Function.update]

/-- C6 amended: with aliased buffers the side chain overwrites the inputs,
so the delay lines process the gain vector itself and the final in-place
multiply squares the delayed gain: each aliased output channel equals the
elementwise square of its delayed gain vector, not the gain times the
delayed pre-gained input. -/
theorem C6_aliased_squares_delayed_gain (s : LimState) (xL xR : List ℚ) :
    (limProcessAliased s xL xR).1 =
      List.zipWith (fun a b => a * b)
        (delayProcess s.delayL (limGain s xL xR).1).2
        (delayProcess s.delayL (limGain s xL xR).1).2 ∧
    (limProcessAliased s xL xR).2.1 =
      List.zipWith (fun a b => a * b)
        (delayProcess s.delayR (limGain s xL xR).1).2
        (delayProcess s.delayR (limGain s xL xR).1).2 :=
  ⟨rfl, rfl⟩

/- ============ Claim C9 ================================================ -/

/-- C9 counterexample: at the upper interpolation endpoint with the target
equal to the upper tap delay, no new crossfade begins, yet the step
overwrites lowerDelay (3 becomes 5), contradicting the spec sentence that
all three fields are left unchanged in every other case. -/
theorem C9_counterexample :
    ((delayStepOne delayStateC9 0).1.lowerDelay = 5 ∧
      delayStateC9.lowerDelay = 3) ∧
    ¬ (delayStateC9.interpolation = 1 ∧ delayStateC9.delay ≠ delayStateC9.upperDelay) ∧
    ¬ (delayStateC9.interpolation = 0 ∧ delayStateC9.delay ≠ delayStateC9.lowerDelay) ∧
    (delayStepOne delayStateC9 0).1.increment = delayStateC9.increment := by
  refine ⟨⟨?_, rfl⟩, ?_, ?_, ?_⟩ <;>
    norm_num [delayStepOne, delayStateC9, delayDefault]

/-- C9 amended: in a per-sample step, the increment changes only when a new
crossfade begins; away from both endpoints all three fields are unchanged;
but at an endpoint the opposite tap delay is unconditionally latched to the
target (even when the target equals the endpoint tap delay), while the tap
delay of the endpoint side itself is unchanged. -/
theorem C9_endpoint_latch (d : DelayState) (x : ℚ) :
    ((d.interpolation ≠ 0 ∧ d.interpolation ≠ 1) →
      ((delayStepOne d x).1.lowerDelay = d.lowerDelay ∧
       (delayStepOne d x).1.upperDelay = d.upperDelay ∧
       (delayStepOne d x).1.increment = d.increment)) ∧
    ((delayStepOne d x).1.increment ≠ d.increment →
      ((d.interpolation = 1 ∧ d.delay ≠ d.upperDelay) ∨
       (d.interpolation = 0 ∧ d.delay ≠ d.lowerDelay))) ∧
    (d.interpolation = 1 → (delayStepOne d x).1.lowerDelay = d.delay) ∧
    (d.interpolation = 0 → (delayStepOne d x).1.upperDelay = d.delay) ∧
    (d.interpolation ≠ 1 → (delayStepOne d x).1.lowerDelay = d.lowerDelay) ∧
    (d.interpolation ≠ 0 → (delayStepOne d x).1.upperDelay = d.upperDelay) := by
  unfold delayStepOne
  dsimp only
  by_cases h0 : d.interpolation = 0 <;> by_cases h1 : d.interpolation = 1 <;>
    by_cases hu : d.delay = d.upperDelay <;> by_cases hl : d.delay = d.lowerDelay <;>
    simp_all

/-- Witness for C9 amended in mid-crossfade: all three fields unchanged. -/
theorem C9_endpoint_latch_witness :
    (delayStepOne delayStateC9w 0).1.lowerDelay = delayStateC9w.lowerDelay ∧
    (delayStepOne delayStateC9w 0).1.upperDelay = delayStateC9w.upperDelay ∧
    (delayStepOne delayStateC9w 0).1.increment = delayStateC9w.increment :=
  (C9_endpoint_latch delayStateC9w 0).1 (by norm_num [delayStateC9w, delayDefault])

/- ============ Claim C10 =============================================== -/

/-- C10: Process mutates the caller input buffers.  For every state and
input block, the final contents of the x buffers equal the look-ahead
delayed, pre-gained input samples (the state of both the pre-gain smoother
and the delay lines being threaded from the call state); and at a concrete
instance the final xL buffer differs from the original input. -/
theorem C10_inputs_mutated (s : LimState) (xL xR : List ℚ) :
    ((limProcess s xL xR).2.2.1 =
      (delayProcess s.delayL
        (preGainLoop s.smoothParamCoeff s.linPreGain s.smoothPreGain xL xR).2.1).2 ∧
     (limProcess s xL xR).2.2.2.1 =
      (delayProcess s.delayR
        (preGainLoop s.smoothParamCoeff s.linPreGain s.smoothPreGain xL xR).2.2).2) ∧
    (limProcess limStateEx [1] [0]).2.2.1 ≠ [1] := by
  refine ⟨⟨rfl, rfl⟩, ?_⟩
  have h : (limProcess limStateEx [1] [0]).2.2.1 = [1/2] := by
    norm_num [limProcess, limGain, limStateEx, preGainLoop, phProcess, phStep,
      stepOne, clipLoop, esProcess, esStep, esStage, List.zipWith,
      List.replicate, delayProcess, delayStepOne, delayDefault, wrapSub,
      dsLen, abs, Function.update]
  rw [h]
  intro hc
  have := List.head_eq_of_cons_eq hc
  norm_num at this

/- ============ Tier-B helper lemmas =================================== -/

/-- rint of an integer value is that integer. -/
theorem rintR_intCast (n : ℤ) : rintR (n : ℝ) = n := by
  unfold rintR
  rw [Int.fract_intCast]
  rw [if_neg (by norm_num)]
  exact round_intCast n

/-- The smoother coefficient correction for four stages is positive. -/
theorem esK_pos : 0 < esK 4 := by
  unfold esK
  apply one_div_pos.mpr
  apply Real.sqrt_pos.mpr
  have h : (1:ℝ) < (2:ℝ) ^ ((1 : ℝ) / ((4:ℕ) : ℝ)) :=
    (Real.one_lt_rpow_iff_of_pos (by norm_num : (0:ℝ) < 2)).mpr
      (Or.inl ⟨by norm_num, by norm_num⟩)
  linarith

/-- rint of 60 is 60. -/
theorem rintR_sixty : rintR (60 : ℝ) = 60 := by
  have h : ((60 : ℝ)) = ((60 : ℤ) : ℝ) := by norm_cast
  rw [h, rintR_intCast]

/- ============ Claim C3 ================================================ -/

/-- C3 counterexample: after set_sample_rate(24000) on the default limiter,
the smoother attack coefficient is NOT exp(-2*pi*K*(1/24000)/attTime): it
still holds the value computed at 48000, because
ExpSmootherCascade::SetSR does not recompute the coefficients. -/
theorem C3_counterexample :
    (limSetSR limCfgDefault 24000).es.attCoeff ≠
      Real.exp ((-(2 * Real.pi * esK 4 * (1 / 24000))) /
        (limSetSR limCfgDefault 24000).es.attTime) := by
  have hK := esK_pos
  have hpi := Real.pi_pos
  intro hEq
  simp only [limSetSR, esSetSR, limCfgDefault, esCfgDefault] at hEq
  have h2 := Real.exp_eq_exp.mp hEq
  have hne : Real.pi * esK 4 > 0 := mul_pos hpi hK
  field_simp at h2
  nlinarith [h2, hne]

/-- C3 amended: set_sample_rate(sr) recomputes the limiter's 20 Hz
parameter-smoothing coefficient exp(-2*pi*20/sr) and the peak-hold samples
per stage rint(holdTime/8*sr), and updates the smoother's stored 2*pi*T;
but the smoother's attack and release coefficients keep their previous
values (they are rebuilt only by the next SetAttTime / SetRelTime call). -/
theorem C3_setSR_stale_coeffs (c : LimConfig) (sr : ℝ) (h : 0 < sr) :
    (limSetSR c sr).smoothParamCoeff = Real.exp (-(2 * Real.pi * 20) / sr) ∧
    (limSetSR c sr).ph.holdTimeSamples = rintR (c.ph.holdTime * (1/8) * sr) ∧
    (limSetSR c sr).es.twoPiT = 2 * Real.pi / sr ∧
    (limSetSR c sr).es.attCoeff = c.es.attCoeff ∧
    (limSetSR c sr).es.relCoeff = c.es.relCoeff := by
  refine ⟨?_, rfl, ?_, rfl, rfl⟩
  · show Real.exp (-(2 * Real.pi) * 20 * (1/sr)) = Real.exp (-(2 * Real.pi * 20) / sr)
    congr 1
    ring
  · show 2 * Real.pi * (1/sr) = 2 * Real.pi / sr
    ring

/-- Witness for C3 amended at the default limiter and sr = 24000. -/
theorem C3_setSR_stale_coeffs_witness :
    (limSetSR limCfgDefault 24000).smoothParamCoeff =
      Real.exp (-(2 * Real.pi * 20) / 24000) ∧
    (limSetSR limCfgDefault 24000).es.attCoeff = limCfgDefault.es.attCoeff ∧
    (0 : ℝ) < 24000 :=
  ⟨(C3_setSR_stale_coeffs limCfgDefault 24000 (by norm_num)).1,
   (C3_setSR_stale_coeffs limCfgDefault 24000 (by norm_num)).2.2.2.1,
   by norm_num⟩

/- ============ Claim C4 ================================================ -/

/-- C4: constructing with the explicit configuration equal to the default
values is NOT equivalent to default construction followed by the six
setters: the constructor leaves every derived quantity at its default (in
particular lookaheadDelay = 0), while the setter chain recomputes
lookaheadDelay = rint(0.01/8*48000)*8 = 480 and pushes it into both delay
lines.  The constructor body assigns only the six raw fields. -/
theorem C4_ctor_not_equiv :
    (limCtor 48000 0 (1/100) 0 (1/20) (-(3/10))).lookaheadDelay = 0 ∧
    (limSetThreshold (limSetRelTime (limSetHoldTime (limSetAttTime
      (limSetPreGain (limSetSR limCfgDefault 48000) 0) (1/100)) 0) (1/20))
      (-(3/10))).lookaheadDelay = 480 ∧
    (limSetAttTime (limSetPreGain (limSetSR limCfgDefault 48000) 0)
      (1/100)).delayL.delay = 480 ∧
    ((0 : ℤ) ≠ 480) := by
  refine ⟨rfl, ?_, ?_, by norm_num⟩
  · show rintR ((1/100 : ℝ) * (1/8) * 48000) * 8 = 480
    have h : ((1/100 : ℝ) * (1/8) * 48000) = 60 := by norm_num
    rw [h, rintR_sixty]
    norm_num
  · show rintR ((1/100 : ℝ) * (1/8) * 48000) * 8 = 480
    have h : ((1/100 : ℝ) * (1/8) * 48000) = 60 := by norm_num
    rw [h, rintR_sixty]
    norm_num

/- ============ Claim C5 ================================================ -/

/-- C5: SetAttTime(a) sets the lookahead to rint(a/8*SR)*8 (a multiple of
8 = M), pushes it into both delay lines as target delay and interpolation
time, sets the smoother attack time to a and the peak-hold hold time to
a + hold; and with hold = 0 (and the peak holder at the limiter rate, as
in every reachable configuration) the total window 8 * holdTimeSamples
equals the lookahead exactly. -/
theorem C5_setAttTime (c : LimConfig) (a : ℝ) (ha : 0 < a)
    (hsr : c.ph.SR = c.SR) :
    (limSetAttTime c a).lookaheadDelay = rintR (a * (1/8) * c.SR) * 8 ∧
    (limSetAttTime c a).delayL.delay = (limSetAttTime c a).lookaheadDelay ∧
    (limSetAttTime c a).delayL.interpolationTime =
      (limSetAttTime c a).lookaheadDelay ∧
    (limSetAttTime c a).delayR.delay = (limSetAttTime c a).lookaheadDelay ∧
    (limSetAttTime c a).delayR.interpolationTime =
      (limSetAttTime c a).lookaheadDelay ∧
    (limSetAttTime c a).es.attTime = a ∧
    (limSetAttTime c a).ph.holdTime = a + c.hold ∧
    (c.hold = 0 →
      8 * (limSetAttTime c a).ph.holdTimeSamples =
        (limSetAttTime c a).lookaheadDelay) := by
  refine ⟨rfl, rfl, rfl, rfl, rfl, rfl, rfl, ?_⟩
  intro h0
  show 8 * rintR ((a + c.hold) * (1/8) * c.ph.SR) = rintR (a * (1/8) * c.SR) * 8
  rw [h0, add_zero, hsr, mul_comm]

/-- Witness for C5 at the default limiter and a = 0.01. -/
theorem C5_setAttTime_witness :
    (limSetAttTime limCfgDefault (1/100)).lookaheadDelay =
      rintR ((1/100 : ℝ) * (1/8) * limCfgDefault.SR) * 8 ∧
    (limSetAttTime limCfgDefault (1/100)).es.attTime = 1/100 ∧
    8 * (limSetAttTime limCfgDefault (1/100)).ph.holdTimeSamples =
      (limSetAttTime limCfgDefault (1/100)).lookaheadDelay ∧
    (0 : ℝ) < 1/100 := by
  have h := C5_setAttTime limCfgDefault (1/100) (by norm_num) rfl
  exact ⟨h.1, h.2.2.2.2.2.1, h.2.2.2.2.2.2.2 rfl, by norm_num⟩

/- ============ Claim C7: single-stage release structure =============== -/

/-- A releasing step resets the timer and takes the input. -/
theorem stepOne_of_rel (h : ℕ) (x : ℚ) (p : ℕ × ℚ) (hr : phRel h x p) :
    stepOne h x p = (0, x) := by
  unfold stepOne phRel at *
  exact if_pos hr

/-- A holding step increments the timer and keeps the output. -/
theorem stepOne_of_not_rel (h : ℕ) (x : ℚ) (p : ℕ × ℚ) (hr : ¬ phRel h x p) :
    stepOne h x p = (p.1 + 1, p.2) := by
  unfold stepOne phRel at *
  exact if_neg hr

/-- Over a run of holding steps the output is constant and the timer counts
the run length. -/
theorem phHoldRun (h : ℕ) (ι : ℕ → ℚ) (o : ℕ → ℚ) (t : ℕ → ℕ)
    (Hrec : ∀ s, (t (s+1), o (s+1)) = stepOne h (ι (s+1)) (t s, o s)) :
    ∀ r d, (∀ j, j < d → ¬ phRel h (ι (r+j+1)) (t (r+j), o (r+j))) →
      o (r+d) = o r ∧ t (r+d) = t r + d := by
  intro r d
  induction d with
  | zero => intro _; exact ⟨rfl, rfl⟩
  | succ d ih =>
    intro hno
    obtain ⟨ho, ht⟩ := ih (fun j hj => hno j (Nat.lt_succ_of_lt hj))
    have hstep := Hrec (r + d)
    rw [stepOne_of_not_rel _ _ _ (hno d (Nat.lt_succ_self d))] at hstep
    have h1 : t (r + d + 1) = t (r + d) + 1 := congrArg Prod.fst hstep
    have h2 : o (r + d + 1) = o (r + d) := congrArg Prod.snd hstep
    refine ⟨?_, ?_⟩
    · show o (r + d + 1) = o r
      rw [h2, ho]
    · show t (r + d + 1) = t r + (d + 1)
      rw [h1, ht]
      omega

/-- Last-release decomposition: up to time s the stage either never
released, or there is a last releasing transition r with only holds
afterwards. -/
theorem phLastRel (h : ℕ) (ι : ℕ → ℚ) (o : ℕ → ℚ) (t : ℕ → ℕ) :
    ∀ s, (∀ j, j < s → ¬ phRel h (ι (j+1)) (t j, o j)) ∨
      (∃ r, r < s ∧ phRel h (ι (r+1)) (t r, o r) ∧
        ∀ j, r < j → j < s → ¬ phRel h (ι (j+1)) (t j, o j)) := by
  intro s
  induction s with
  | zero => exact Or.inl (fun j hj => absurd hj (Nat.not_lt_zero j))
  | succ s ih =>
    by_cases hs : phRel h (ι (s+1)) (t s, o s)
    · exact Or.inr ⟨s, Nat.lt_succ_self s, hs, fun j hj1 hj2 => absurd (by omega : j < j) (lt_irrefl j)⟩
    · rcases ih with hnone | ⟨r, hr1, hr2, hr3⟩
      · refine Or.inl (fun j hj => ?_)
        rcases Nat.lt_succ_iff_lt_or_eq.mp hj with hj | hj
        · exact hnone j hj
        · subst hj; exact hs
      · refine Or.inr ⟨r, by omega, hr2, fun j h1 h2 => ?_⟩
        rcases Nat.lt_succ_iff_lt_or_eq.mp h2 with h2 | h2
        · exact hr3 j h1 h2
        · subst h2; exact hs

/-- A stage cannot hold for more than h + timer-start steps: some release
occurs among the first h+1 transitions. -/
theorem phRelExists (h : ℕ) (ι : ℕ → ℚ) (o : ℕ → ℚ) (t : ℕ → ℕ)
    (Hrec : ∀ s, (t (s+1), o (s+1)) = stepOne h (ι (s+1)) (t s, o s))
    (s : ℕ) (hs : h < s)
    (hnone : ∀ j, j < s → ¬ phRel h (ι (j+1)) (t j, o j)) : False := by
  by_cases h0 : h ≤ t 0
  · exact hnone 0 (by omega) (Or.inr h0)
  · push_neg at h0
    have hrun := phHoldRun h ι o t Hrec 0 (h - t 0)
      (fun j hj => hnone (0 + j) (by omega))
    have ht : t (h - t 0) = h := by
      have := hrun.2
      simp only [Nat.zero_add] at this
      omega
    exact hnone (h - t 0) (by omega) (Or.inr (by omega))

/-- Stage upper bound: beyond time a + h the output of a stage whose input
is bounded by u after time a never exceeds u. -/
theorem phStageB (h a : ℕ) (u : ℚ) (ι : ℕ → ℚ) (o : ℕ → ℚ) (t : ℕ → ℕ)
    (Hrec : ∀ s, (t (s+1), o (s+1)) = stepOne h (ι (s+1)) (t s, o s))
    (Hin2 : ∀ s, a < s → ι s ≤ u) :
    ∀ s, a + h < s → o s ≤ u := by
  intro s hs
  rcases phLastRel h ι o t s with hnone | ⟨r, hr1, hr2, hr3⟩
  · exact (phRelExists h ι o t Hrec s (by omega) hnone).elim
  · have hrelstep := Hrec r
    rw [stepOne_of_rel _ _ _ hr2] at hrelstep
    have ht1 : t (r+1) = 0 := congrArg Prod.fst hrelstep
    have ho1 : o (r+1) = ι (r+1) := congrArg Prod.snd hrelstep
    have hrun := phHoldRun h ι o t Hrec (r+1) (s - (r+1))
      (fun j hj => hr3 (r+1+j) (by omega) (by omega))
    have hos : o s = ι (r+1) := by
      have := hrun.1
      rw [show r + 1 + (s - (r+1)) = s by omega] at this
      rw [this, ho1]
    by_cases hra : a < r + 1
    · rw [hos]
      exact Hin2 (r+1) hra
    · push_neg at hra
      exfalso
      have hrun2 := phHoldRun h ι o t Hrec (r+1) h
        (fun j hj => hr3 (r+1+j) (by omega) (by omega))
      have ht2 : t (r+1+h) = h := by
        rw [hrun2.2, ht1]
        exact Nat.zero_add h
      exact hr3 (r+1+h) (by omega) (by omega) (Or.inr (le_of_eq ht2.symm))

/-- Stage lower bound: through time F + a + h the output of a stage whose
input stays at least u through time F + a (and at most u after time a)
stays at least u. -/
theorem phStageA (h F a : ℕ) (u : ℚ) (ι : ℕ → ℚ) (o : ℕ → ℚ) (t : ℕ → ℕ)
    (hF : h + 1 ≤ F)
    (Hrec : ∀ s, (t (s+1), o (s+1)) = stepOne h (ι (s+1)) (t s, o s))
    (Hin1 : ∀ s, 1 ≤ s → s ≤ F + a → u ≤ ι s)
    (Hin2 : ∀ s, a < s → ι s ≤ u) :
    ∀ s, 1 ≤ s → s ≤ F + a + h → u ≤ o s := by
  intro s
  induction s using Nat.strong_induction_on with
  | _ s IH =>
    intro hs1 hs2
    obtain ⟨t0, rfl⟩ : ∃ t0, s = t0 + 1 := ⟨s - 1, by omega⟩
    by_cases hrel : phRel h (ι (t0+1)) (t t0, o t0)
    · have hstep := Hrec t0
      rw [stepOne_of_rel _ _ _ hrel] at hstep
      have ho : o (t0+1) = ι (t0+1) := congrArg Prod.snd hstep
      by_cases hsa : t0 + 1 ≤ F + a
      · rw [ho]
        exact Hin1 _ hs1 hsa
      · push_neg at hsa
        rcases hrel with hlatch | htimeout
        · have ho' : u ≤ o t0 := IH t0 (by omega) (by omega) (by omega)
          rw [ho]
          exact le_trans ho' hlatch
        · exfalso
          rcases phLastRel h ι o t t0 with hnone | ⟨r, hr1, hr2, hr3⟩
          · exact phRelExists h ι o t Hrec t0 (by omega) hnone
          · have hrelstep := Hrec r
            rw [stepOne_of_rel _ _ _ hr2] at hrelstep
            have ht1 : t (r+1) = 0 := congrArg Prod.fst hrelstep
            have hrun := phHoldRun h ι o t Hrec (r+1) (t0 - (r+1))
              (fun j hj => hr3 (r+1+j) (by omega) (by omega))
            have hts : t t0 = t0 - r - 1 := by
              have := hrun.2
              rw [show r + 1 + (t0 - (r+1)) = t0 by omega, ht1] at this
              omega
            have hrh : r + 1 + h ≤ t0 := by omega
            have hrw : r + 1 < F + a := by omega
            have hw2 : F + a ≤ t0 := by omega
            have hnr := hr3 (F + a - 1) (by omega) (by omega)
            have hrun2 := phHoldRun h ι o t Hrec (r+1) (F + a - 1 - (r+1))
              (fun j hj => hr3 (r+1+j) (by omega) (by omega))
            have heq : r + 1 + (F + a - 1 - (r+1)) = F + a - 1 := by omega
            have how : o (F + a - 1) = ι (r + 1) := by
              have h2 := hrun2.1
              rw [heq] at h2
              have h3 : o (r + 1) = ι (r + 1) := congrArg Prod.snd hrelstep
              rw [h2, h3]
            have htw : t (F + a - 1) = F + a - 1 - (r+1) := by
              have := hrun2.2
              rw [heq, ht1] at this
              omega
            have hiw : ι (F + a) = u :=
              le_antisymm (Hin2 (F+a) (by omega)) (Hin1 (F+a) (by omega) (by omega))
            have hfa : F + a - 1 + 1 = F + a := by omega
            rw [hfa] at hnr
            unfold phRel at hnr
            push_neg at hnr
            have hou : u < o (F + a - 1) := by
              have h1 := hnr.1
              rw [hiw] at h1
              exact h1
            have hra : r + 1 ≤ a := by
              by_contra hc
              push_neg at hc
              have := Hin2 (r+1) (by omega)
              rw [how] at hou
              exact absurd hou (not_lt.mpr this)
            have ht3 : F + a - 1 - (r+1) < h := htw ▸ hnr.2
            omega
    · have hstep := Hrec t0
      rw [stepOne_of_not_rel _ _ _ hrel] at hstep
      have ho : o (t0+1) = o t0 := congrArg Prod.snd hstep
      by_cases hsa : t0 + 1 ≤ F + a
      · unfold phRel at hrel
        push_neg at hrel
        have hin := Hin1 (t0+1) hs1 hsa
        rw [ho]
        exact le_of_lt (lt_of_le_of_lt hin hrel.1)
      · push_neg at hsa
        have := IH t0 (by omega) (by omega) (by omega)
        rw [ho]
        exact this

/-- phStep preserves the number of stages. -/
theorem phStep_length (h : ℕ) : ∀ (L : List (ℕ × ℚ)) (x : ℚ),
    ((phStep h x L).1).length = L.length := by
  intro L
  induction L with
  | nil => intro x; rfl
  | cons p ps ih =>
    intro x
    simp only [phStep, List.length_cons]
    rw [ih]

/-- phSeq preserves the number of stages. -/
theorem phSeq_length (h : ℕ) (B : ℕ → ℚ) (init : List (ℕ × ℚ)) :
    ∀ s, (phSeq h B init s).length = init.length := by
  intro s
  induction s with
  | zero => rfl
  | succ s ih =>
    show ((phStep h (B (s+1)) (phSeq h B init s)).1).length = init.length
    rw [phStep_length, ih]

/-- Stage 0 of a phStep consumes the sample input. -/
theorem phStep_getD_zero (h : ℕ) (x : ℚ) (L : List (ℕ × ℚ)) (hL : 0 < L.length) :
    (phStep h x L).1.getD 0 (0,0) = stepOne h x (L.getD 0 (0,0)) := by
  cases L with
  | nil => exact absurd hL (by simp)
  | cons p ps => rfl

/-- Stage i+1 of a phStep consumes the new output of stage i. -/
theorem phStep_getD_succ (h : ℕ) : ∀ (L : List (ℕ × ℚ)) (x : ℚ) (i : ℕ),
    i + 1 < L.length →
    (phStep h x L).1.getD (i+1) (0,0) =
      stepOne h ((phStep h x L).1.getD i (0,0)).2 (L.getD (i+1) (0,0)) := by
  intro L
  induction L with
  | nil => intro x i hi; exact absurd hi (by simp)
  | cons p ps ih =>
    intro x i hi
    cases i with
    | zero =>
      show (phStep h (stepOne h x p).2 ps).1.getD 0 (0,0) =
        stepOne h (stepOne h x p).2 (ps.getD 0 (0,0))
      exact phStep_getD_zero h _ ps (by simpa using hi)
    | succ i =>
      show (phStep h (stepOne h x p).2 ps).1.getD (i+1) (0,0) =
        stepOne h ((phStep h (stepOne h x p).2 ps).1.getD i (0,0)).2 (ps.getD (i+1) (0,0))
      exact ih _ i (by simpa using hi)

/-- Recurrence of stage 0 of the stream evolution. -/
theorem phSeqRec_zero (h : ℕ) (B : ℕ → ℚ) (init : List (ℕ × ℚ))
    (hL : 0 < init.length) (s : ℕ) :
    (phTimerSeq h B init 0 (s+1), phOutSeq h B init 0 (s+1)) =
      stepOne h (B (s+1)) (phTimerSeq h B init 0 s, phOutSeq h B init 0 s) := by
  unfold phTimerSeq phOutSeq
  rw [Prod.mk.eta, Prod.mk.eta]
  show (phStep h (B (s+1)) (phSeq h B init s)).1.getD 0 (0,0) =
    stepOne h (B (s+1)) ((phSeq h B init s).getD 0 (0,0))
  exact phStep_getD_zero h _ _ (by rw [phSeq_length]; exact hL)

/-- Recurrence of stage i+1 of the stream evolution: its input at step s+1
is the stage-i output at step s+1. -/
theorem phSeqRec_succ (h : ℕ) (B : ℕ → ℚ) (init : List (ℕ × ℚ)) (i : ℕ)
    (hL : i + 1 < init.length) (s : ℕ) :
    (phTimerSeq h B init (i+1) (s+1), phOutSeq h B init (i+1) (s+1)) =
      stepOne h (phOutSeq h B init i (s+1))
        (phTimerSeq h B init (i+1) s, phOutSeq h B init (i+1) s) := by
  unfold phTimerSeq phOutSeq
  rw [Prod.mk.eta, Prod.mk.eta]
  show (phStep h (B (s+1)) (phSeq h B init s)).1.getD (i+1) (0,0) =
    stepOne h (((phStep h (B (s+1)) (phSeq h B init s)).1.getD i (0,0)).2)
      ((phSeq h B init s).getD (i+1) (0,0))
  exact phStep_getD_succ h _ _ i (by rw [phSeq_length]; exact hL)

/-- Cascade bounds: if the rectified input stream is u through time F and
at most u always, then stage i outputs at least u through time F+(i+1)h and
at most u beyond time (i+1)h; hence it outputs exactly u on the overlap. -/
theorem phCascadeBounds (h F : ℕ) (u : ℚ) (B : ℕ → ℚ) (init : List (ℕ × ℚ))
    (hF : h + 1 ≤ F)
    (HB1 : ∀ s, 1 ≤ s → s ≤ F → u ≤ B s) (HB2 : ∀ s, B s ≤ u) :
    ∀ i, i < init.length →
      (∀ s, 1 ≤ s → s ≤ F + (i + 1) * h → u ≤ phOutSeq h B init i s) ∧
      (∀ s, (i + 1) * h < s → phOutSeq h B init i s ≤ u) := by
  intro i
  induction i with
  | zero =>
    intro hi
    refine ⟨?_, ?_⟩
    · have hA := phStageA h F 0 u B (phOutSeq h B init 0) (phTimerSeq h B init 0)
        hF (phSeqRec_zero h B init hi)
        (fun s h1 h2 => HB1 s h1 (by omega)) (fun s _ => HB2 s)
      intro s h1 h2
      exact hA s h1 (by omega)
    · have hB := phStageB h 0 u B (phOutSeq h B init 0) (phTimerSeq h B init 0)
        (phSeqRec_zero h B init hi) (fun s _ => HB2 s)
      intro s h2
      exact hB s (by omega)
  | succ i ih =>
    intro hi
    have hip := ih (by omega)
    have hm : (i + 1 + 1) * h = (i + 1) * h + h := Nat.succ_mul _ _
    refine ⟨?_, ?_⟩
    · have hA := phStageA h F ((i+1)*h) u (phOutSeq h B init i)
        (phOutSeq h B init (i+1)) (phTimerSeq h B init (i+1))
        hF (phSeqRec_succ h B init i hi)
        (fun s h1 h2 => hip.1 s h1 h2) (fun s hs => hip.2 s hs)
      intro s h1 h2
      exact hA s h1 (by omega)
    · have hB := phStageB h ((i+1)*h) u (phOutSeq h B init i)
        (phOutSeq h B init (i+1)) (phTimerSeq h B init (i+1))
        (phSeqRec_succ h B init i hi) (fun s hs => hip.2 s hs)
      intro s h2
      exact hB s (by omega)

/-- Processing one appended sample advances the state by one phStep. -/
theorem phProcess_snoc (h : ℕ) : ∀ (xs : List ℚ) (st : List (ℕ × ℚ)) (v : ℚ),
    (phProcess h st (xs ++ [v])).1 = (phStep h |v| (phProcess h st xs).1).1 := by
  intro xs
  induction xs with
  | nil => intro st v; rfl
  | cons x xs ih =>
    intro st v
    show (phProcess h (phStep h |x| st).1 (xs ++ [v])).1 =
      (phStep h |v| (phProcess h (phStep h |x| st).1 xs).1).1
    exact ih _ v

/-- Taking one more sample appends the sample at the cut. -/
theorem take_succ_getD (xs : List ℚ) : ∀ (n : ℕ), n < xs.length →
    xs.take (n+1) = xs.take n ++ [xs.getD n 0] := by
  induction xs with
  | nil => intro n hn; exact absurd hn (by simp)
  | cons x xs ih =>
    intro n hn
    cases n with
    | zero => rfl
    | succ n =>
      show x :: xs.take (n+1) = x :: (xs.take n ++ [xs.getD n 0])
      rw [ih n (by simpa using hn)]

/-- The state after a prefix of the block equals the stream-form state, for
any stream B that agrees with the rectified block samples. -/
theorem phProcess_take (h : ℕ) (xs : List ℚ) (init : List (ℕ × ℚ)) (B : ℕ → ℚ)
    (hB : ∀ s, B s = |xs.getD (s - 1) 0|) :
    ∀ n, n ≤ xs.length →
      (phProcess h init (xs.take n)).1 = phSeq h B init n := by
  intro n
  induction n with
  | zero => intro _; rfl
  | succ n ih =>
    intro hn
    rw [take_succ_getD xs n (by omega), phProcess_snoc, ih (by omega)]
    have hBn : B (n + 1) = |xs.getD n 0| := by rw [hB (n + 1), Nat.add_sub_cancel]
    rw [← hBn]
    rfl

/-- Output sample n of a block run is the phStep output from the length-n
prefix state on input sample n. -/
theorem phProcess_out_getD (h : ℕ) : ∀ (xs : List ℚ) (st : List (ℕ × ℚ)) (n : ℕ),
    n < xs.length →
    (phProcess h st xs).2.getD n 0 =
      (phStep h |xs.getD n 0| (phProcess h st (xs.take n)).1).2 := by
  intro xs
  induction xs with
  | nil => intro st n hn; exact absurd hn (by simp)
  | cons x xs ih =>
    intro st n hn
    cases n with
    | zero => rfl
    | succ n =>
      show (phProcess h (phStep h |x| st).1 xs).2.getD n 0 =
        (phStep h |xs.getD n 0| (phProcess h st ((x :: xs).take (n+1))).1).2
      rw [ih (phStep h |x| st).1 n (by simpa using hn)]
      rfl

/-- The sample emitted by phStep is the new output of the last stage. -/
theorem phStep_snd (h : ℕ) : ∀ (L : List (ℕ × ℚ)) (x : ℚ), L ≠ [] →
    (phStep h x L).2 = ((phStep h x L).1.getD (L.length - 1) (0,0)).2 := by
  intro L
  induction L with
  | nil => intro x hx; exact absurd rfl hx
  | cons p ps ih =>
    intro x _
    cases ps with
    | nil => rfl
    | cons q qs =>
      show (phStep h (stepOne h x p).2 (q :: qs)).2 =
        ((stepOne h x p :: (phStep h (stepOne h x p).2 (q :: qs)).1).getD
          ((q :: qs).length - 1 + 1) (0,0)).2
      rw [List.getD_cons_succ]
      exact ih (stepOne h x p).2 (List.cons_ne_nil q qs)

/-- getD over a replicate of zeros is zero. -/
theorem getD_replicate_zero (K : ℕ) : ∀ j, (List.replicate K (0:ℚ)).getD j 0 = 0 := by
  induction K with
  | zero => intro j; simp [List.getD]
  | succ K ih =>
    intro j
    cases j with
    | zero => rfl
    | succ j => exact ih j

/-- getD over the feed-then-silence block. -/
theorem getD_block (F K : ℕ) (u : ℚ) :
    ∀ j, (List.replicate F u ++ List.replicate K 0).getD j 0 =
      if j < F then u else 0 := by
  induction F with
  | zero =>
    intro j
    simp only [List.replicate, List.nil_append]
    rw [if_neg (by omega)]
    exact getD_replicate_zero K j
  | succ F ih =>
    intro j
    cases j with
    | zero =>
      rw [if_pos (Nat.succ_pos F)]
      rfl
    | succ j =>
      show (List.replicate F u ++ List.replicate K 0).getD j 0 = _
      rw [ih j]
      by_cases hj : j < F
      · rw [if_pos hj, if_pos (by omega)]
      · rw [if_neg hj, if_neg (by omega)]

/-- C7: for a cascade of at least two sections, from ANY starting state, if
the input is the constant u > 0 for F >= H samples (H = stages * h) and
then drops to 0, the cascade output equals u at each of the H samples
following the drop. -/
theorem C7_peak_hold (h F K : ℕ) (u : ℚ) (init : List (ℕ × ℚ))
    (hM : 2 ≤ init.length) (hu : 0 < u) (hF : init.length * h ≤ F) :
    ∀ k, 1 ≤ k → k ≤ init.length * h → k ≤ K →
      (phProcess h init
        (List.replicate F u ++ List.replicate K 0)).2.getD (F + k - 1) 0 = u := by
  intro k hk1 hk2 hk3
  have hh : 1 ≤ h := by
    rcases Nat.eq_zero_or_pos h with h0 | h1
    · rw [h0, Nat.mul_zero] at hk2
      omega
    · exact h1
  have hF1 : h + 1 ≤ F := by
    have h2 : 2 * h ≤ init.length * h := Nat.mul_le_mul_right h hM
    omega
  have hlen : (List.replicate F u ++ List.replicate K 0).length = F + K := by
    simp
  obtain ⟨B, hBif⟩ : ∃ B : ℕ → ℚ, ∀ s : ℕ, B s = if s - 1 < F then u else 0 :=
    ⟨fun s => if s - 1 < F then u else 0, fun s => rfl⟩
  have hB : ∀ s : ℕ,
      B s = |(List.replicate F u ++ List.replicate K 0).getD (s - 1) 0| := by
    intro s
    rw [hBif s, getD_block]
    by_cases hs : s - 1 < F
    · rw [if_pos hs]
      exact (abs_of_pos hu).symm
    · rw [if_neg hs]
      exact abs_zero.symm
  obtain ⟨n, hn⟩ : ∃ n, F + k = n + 1 := ⟨F + k - 1, by omega⟩
  have hn2 : F + k - 1 = n := by omega
  have HB1 : ∀ s, 1 ≤ s → s ≤ F → u ≤ B s := by
    intro s h1 h2
    rw [hBif s, if_pos (by omega)]
  have HB2 : ∀ s, B s ≤ u := by
    intro s
    rw [hBif s]
    by_cases hs : s - 1 < F
    · rw [if_pos hs]
    · rw [if_neg hs]
      exact le_of_lt hu
  have hidx : F + k - 1 < (List.replicate F u ++ List.replicate K 0).length := by
    rw [hlen]
    omega
  have hle : F + k - 1 ≤ (List.replicate F u ++ List.replicate K 0).length := by
    rw [hlen]
    omega
  have hout := phProcess_out_getD h (List.replicate F u ++ List.replicate K 0)
    init (F + k - 1) hidx
  rw [phProcess_take h _ init B hB (F + k - 1) hle] at hout
  rw [hn2] at hout
  have hBn : B (n + 1) = |(List.replicate F u ++ List.replicate K 0).getD n 0| := by
    rw [hB (n + 1), Nat.add_sub_cancel]
  rw [← hBn] at hout
  have hlenseq : (phSeq h B init n).length = init.length := phSeq_length h B init n
  have hne : phSeq h B init n ≠ [] := by
    intro hc
    rw [hc] at hlenseq
    simp at hlenseq
    omega
  rw [phStep_snd h _ _ hne] at hout
  rw [hlenseq] at hout
  have hstep : (phStep h (B (n + 1)) (phSeq h B init n)).1 = phSeq h B init (n + 1) := rfl
  rw [hstep] at hout
  have hil : init.length - 1 < init.length := by omega
  have hcb := phCascadeBounds h F u B init hF1 HB1 HB2 (init.length - 1) hil
  have hml : init.length - 1 + 1 = init.length := by omega
  rw [hml] at hcb
  have hA := hcb.1 (n + 1) (by omega) (by omega)
  have hB2 := hcb.2 (n + 1) (by omega)
  unfold phOutSeq at hA hB2
  rw [hn2, hout]
  exact le_antisymm hB2 hA

/-- Witness for C7: two stages, per-stage hold 1 (H = 2), from the stale
state [(0,2),(0,3)], feeding 1 for 2 samples then 0: the second sample
after the drop still outputs 1. -/
theorem C7_peak_hold_witness :
    (phProcess 1 [((0:ℕ), (2:ℚ)), (0, 3)]
      (List.replicate 2 1 ++ List.replicate 2 0)).2.getD 3 0 = 1 :=
  C7_peak_hold 1 2 2 1 [(0, 2), (0, 3)] (by decide) (by norm_num) (by decide)
    2 (by decide) (by decide) (by decide)
